import Mathlib

/-!
# Verification of the AlgoInvestTrade optimization core

Shallow embedding of the repository's four Python modules
(`bruteforce.py`, `optimized.py`, `sac_a_dos_dynamique.py`,
`analyse_datasets.py`).  Currency amounts are embedded as exact
rationals (`ℚ`); Python's `int(...)` truncation toward zero is modelled
by `pyInt`.  The three optimizers (exhaustive, greedy, dynamic
programming) and the comparator are translated from the source; the
theorems at the end of the file settle the specification claims.
-/

namespace AlgoInvest

/-- Python's `int(q)` on a rational: truncation toward zero. -/
def pyInt (q : ℚ) : ℤ := if 0 ≤ q then ⌊q⌋ else ⌈q⌉

/-- An asset record as produced by `creer_action_depuis_ligne` /
`creer_action_depuis_dataset`: a name, a cost in euros and a profit
percentage. -/
structure Action where
  nom : String
  cout : ℚ
  benefice_pct : ℚ
  deriving DecidableEq, Repr

/-- Derived profit in euros: `cout * benefice_pct / 100`
(computed identically in all four modules). -/
def benefice_euros (a : Action) : ℚ := a.cout * a.benefice_pct / 100

/-- Derived greedy ranking key: `benefice_pct / cout`
(`ratio_rentabilite` in `optimized.py`, `action["ratio"]` in
`analyse_datasets.py`). -/
def ratio (a : Action) : ℚ := a.benefice_pct / a.cout

/-- The solution dictionary `{"actions": ..., "cout_total": ...,
"benefice_total": ...}` returned by every optimizer. -/
structure Solution where
  actions : List Action
  cout_total : ℚ
  benefice_total : ℚ
  deriving DecidableEq, Repr

/-- Sum of the costs of a list of actions. -/
def coutTotal (l : List Action) : ℚ := (l.map Action.cout).sum

/-- Sum of the euro profits of a list of actions. -/
def beneficeTotal (l : List Action) : ℚ := (l.map benefice_euros).sum

/-- `calculer_benefice_total` (bruteforce.py): total cost and total
profit (`cout * benefice_pct / 100` summed) of a combination. -/
def calculer_benefice_total (l : List Action) : ℚ × ℚ :=
  (coutTotal l, beneficeTotal l)

/-- `calculer_solution` (optimized.py / sac_a_dos_dynamique.py /
analyse_datasets.py): wraps a chosen list with its totals. -/
def calculer_solution (l : List Action) : Solution :=
  ⟨l, coutTotal l, beneficeTotal l⟩

/-! ## Exhaustive optimizer (`bruteforce.py`) -/

/-- `itertools.combinations l k`: all length-`k` subsequences of `l`
in the order Python enumerates them. -/
def combinations : ℕ → List Action → List (List Action)
  | 0, _ => [[]]
  | _ + 1, [] => []
  | k + 1, a :: rest =>
      (combinations k rest).map (a :: ·) ++ combinations (k + 1) rest

/-- One step of the running-best update inside
`trouver_meilleure_combinaison`: keep the candidate combination iff it
is within budget and its profit strictly exceeds the current best. -/
def considerer (budget : ℚ) (best : Solution) (combo : List Action) : Solution :=
  let ct := (calculer_benefice_total combo).1
  let bt := (calculer_benefice_total combo).2
  if ct ≤ budget then
    (if best.benefice_total < bt then ⟨combo, ct, bt⟩ else best)
  else best

/-- `trouver_meilleure_combinaison` (bruteforce.py): enumerate all
combination sizes 1..n, all combinations of each size, and keep the
best feasible one, starting from the empty solution. -/
def trouver_meilleure_combinaison (actions : List Action) (budget_max : ℚ) : Solution :=
  (List.range' 1 actions.length).foldl
    (fun best taille => (combinations taille actions).foldl (considerer budget_max) best)
    ⟨[], 0, 0⟩

/-! ## Greedy optimizer (`optimized.py`, same selection logic as
`algorithme_glouton` in `analyse_datasets.py`) -/

/-- Stable insertion of `a` into a list already sorted by decreasing
`ratio`: `a` passes the elements of strictly larger ratio and stops in
front of the first element whose ratio is at most its own.  Since the
sort below inserts elements from last to first, an element ends up
before every equal-ratio element that followed it originally — the
tie behaviour of Python's stable `sorted(key=ratio, reverse=True)`. -/
def insertRatioDesc (a : Action) : List Action → List Action
  | [] => [a]
  | b :: rest =>
      if ratio a < ratio b then b :: insertRatioDesc a rest
      else a :: b :: rest

/-- `sorted(actions, key=lambda a: a["ratio"], reverse=True)`:
stable sort by decreasing ratio, embedded as a stable insertion sort
(extensionally equal to any stable sort with this key). -/
def trierParRatio : List Action → List Action
  | [] => []
  | a :: rest => insertRatioDesc a (trierParRatio rest)

/-- The selection loop of `algorithme_glouton`: admit each action in
turn iff its cost fits in the remaining budget. -/
def selectionGloutonne : List Action → ℚ → List Action
  | [], _ => []
  | a :: rest, restant =>
      if a.cout ≤ restant then a :: selectionGloutonne rest (restant - a.cout)
      else selectionGloutonne rest restant

/-- `algorithme_glouton` (optimized.py): sort by decreasing ratio,
scan once admitting affordable actions, return the totals. -/
def algorithme_glouton (actions : List Action) (budget_max : ℚ) : Solution :=
  calculer_solution (selectionGloutonne (trierParRatio actions) budget_max)

/-! ## Dynamic-programming optimizer (`sac_a_dos_dynamique.py`, same
logic as `algorithme_dynamique` in `analyse_datasets.py`) -/

/-- The centime fields of one action as added by
`convertir_actions_en_centimes`:
`(int(cout * 100), int(benefice_euros * 100))`. -/
def centimes (a : Action) : ℕ × ℕ :=
  ((pyInt (a.cout * 100)).toNat, (pyInt (benefice_euros a * 100)).toNat)

/-- `convertir_actions_en_centimes` (sac_a_dos_dynamique.py): the
scaled integer cost/profit pairs, parallel to the input list. -/
def convertir_actions_en_centimes (actions : List Action) : List (ℕ × ℕ) :=
  actions.map centimes

/-- One row of the DP table from the previous row: for every budget
level `b` in `0..B`, `max(table[i-1][b], table[i-1][b-cout]+benefice
if cout ≤ b else 0)`. -/
def buildRow (prev : List ℕ) (c p : ℕ) (B : ℕ) : List ℕ :=
  (List.range (B + 1)).map fun b =>
    max (prev.getD b 0) (if c ≤ b then prev.getD (b - c) 0 + p else 0)

/-- Rows 1..n of the DP table, built one from the previous. -/
def tableAux (prev : List ℕ) (B : ℕ) : List (ℕ × ℕ) → List (List ℕ)
  | [] => []
  | (c, p) :: rest =>
      let r := buildRow prev c p B
      r :: tableAux r B rest

/-- `creer_table_dynamique` (sac_a_dos_dynamique.py): the full
`(n+1) × (B+1)` table, row 0 all zeros. -/
def creer_table_dynamique (cbs : List (ℕ × ℕ)) (B : ℕ) : List (List ℕ) :=
  List.replicate (B + 1) 0 :: tableAux (List.replicate (B + 1) 0) B cbs

/-- The backtracking loop of `retrouver_actions`: walk `i` from `n`
down to 1 while `b > 0`; action `i` was taken iff
`table[i][b] ≠ table[i-1][b]`, in which case its scaled cost is
subtracted from `b`.  Result is in decreasing-index order (the Python
list before its final `reverse()`). -/
def retrouverAux (actions : List Action) (cbs : List (ℕ × ℕ))
    (table : List (List ℕ)) : ℕ → ℕ → List Action
  | 0, _ => []
  | i + 1, b =>
      if b = 0 then []
      else if (table.getD (i + 1) []).getD b 0 ≠ (table.getD i []).getD b 0 then
        actions.getD i ⟨"", 0, 0⟩ ::
          retrouverAux actions cbs table i (b - (cbs.getD i (0, 0)).1)
      else retrouverAux actions cbs table i b

/-- `retrouver_actions` (sac_a_dos_dynamique.py): backtrack through
the table, then reverse to restore forward order. -/
def retrouver_actions (actions : List Action) (cbs : List (ℕ × ℕ))
    (table : List (List ℕ)) (B : ℕ) : List Action :=
  (retrouverAux actions cbs table actions.length B).reverse

/-- `algorithme_sac_a_dos` (sac_a_dos_dynamique.py): scale budget and
actions to centimes, build the table, backtrack, and recompute totals
from the original euro fields. -/
def algorithme_sac_a_dos (actions : List Action) (budget_max : ℚ) : Solution :=
  let budget_centimes := (pyInt (budget_max * 100)).toNat
  let cbs := convertir_actions_en_centimes actions
  let table := creer_table_dynamique cbs budget_centimes
  calculer_solution (retrouver_actions actions cbs table budget_centimes)

/-- `algorithme_dynamique` (analyse_datasets.py): line-for-line the
same algorithm as `algorithme_sac_a_dos`. -/
def algorithme_dynamique (actions : List Action) (budget_max : ℚ) : Solution :=
  algorithme_sac_a_dos actions budget_max

/-! ## Comparator (`comparer_solutions` in `analyse_datasets.py`) -/

/-- The three verdict messages `comparer_solutions` can print. -/
inductive Verdict where
  | algo_meilleur
  | sienna_meilleure
  | equivalentes
  deriving DecidableEq, Repr

/-- The verdict classification of `comparer_solutions`:
`diff > 0.01` → candidate better, `diff < -0.01` → reference better,
otherwise equivalent. -/
def comparer_solutions (algo sienna : Solution) : Verdict :=
  let diff_benefice := algo.benefice_total - sienna.benefice_total
  if diff_benefice > 1 / 100 then .algo_meilleur
  else if diff_benefice < -(1 / 100) then .sienna_meilleure
  else .equivalentes

/-! ## Mutable-record model of `algorithme_glouton` in
`analyse_datasets.py` (which writes a `ratio` key into each input
dict) -/

/-- An asset dictionary as it exists in `analyse_datasets.py`: the
four keys set by `creer_action_depuis_dataset`, plus an optional
`ratio` key (absent until some greedy call adds it). -/
structure ActionRec where
  nom : String
  cout : ℚ
  benefice_pct : ℚ
  benefice_euros : ℚ
  ratio : Option ℚ
  deriving DecidableEq, Repr

/-- The in-place update `action["ratio"] = action["benefice_pct"] /
action["cout"]` performed on every input record. -/
def setRatio (a : ActionRec) : ActionRec :=
  { a with ratio := some (a.benefice_pct / a.cout) }

/-- The `ratio` key read by the sort (always present after the
mutation loop). -/
def ratioRec (a : ActionRec) : ℚ := a.ratio.getD 0

/-- Stable insertion by decreasing stored ratio (record version). -/
def insertRatioDescRec (a : ActionRec) : List ActionRec → List ActionRec
  | [] => [a]
  | b :: rest =>
      if ratioRec a < ratioRec b then b :: insertRatioDescRec a rest
      else a :: b :: rest

/-- Stable sort by decreasing stored ratio (record version). -/
def trierParRatioRec : List ActionRec → List ActionRec
  | [] => []
  | a :: rest => insertRatioDescRec a (trierParRatioRec rest)

/-- Greedy selection scan (record version). -/
def selectionGloutonneRec : List ActionRec → ℚ → List ActionRec
  | [], _ => []
  | a :: rest, restant =>
      if a.cout ≤ restant then a :: selectionGloutonneRec rest (restant - a.cout)
      else selectionGloutonneRec rest restant

/-- Totals of a record selection (`calculer_solution` in
analyse_datasets.py reads the stored `benefice_euros` key). -/
def solutionRec (l : List ActionRec) : List ActionRec × ℚ × ℚ :=
  (l, (l.map ActionRec.cout).sum, (l.map ActionRec.benefice_euros).sum)

/-- `algorithme_glouton` (analyse_datasets.py) with the mutation made
explicit: the first component is the state of the input records after
the call (each has had its `ratio` key written), the second is the
returned solution. -/
def algorithme_glouton_analyse (actions : List ActionRec) (budget_max : ℚ) :
    List ActionRec × (List ActionRec × ℚ × ℚ) :=
  let mutated := actions.map setRatio
  (mutated, solutionRec (selectionGloutonneRec (trierParRatioRec mutated) budget_max))

/-! ## Functional characterization of the DP table

`knap l b` is the value the table recurrence assigns to the prefix
whose *reverse* is `l` at budget level `b`: row `i`, column `b` of
`creer_table_dynamique cbs B` holds `knap ((cbs.take i).reverse) b`
(proved below).  It is the proof-level form of the source recurrence
`max(table[i-1][b], table[i-1][b-cout]+benefice if cout ≤ b else 0)`. -/

/-- The table recurrence, as a function of the reversed prefix of
scaled `(cost, profit)` pairs. -/
def knap : List (ℕ × ℕ) → ℕ → ℕ
  | [], _ => 0
  | (c, p) :: rest, b =>
      max (knap rest b) (if c ≤ b then knap rest (b - c) + p else 0)

/-- Modelled from the spec: the alternative recurrence of §9 ("Open
question") that, when inclusion is infeasible (`cost > b`), considers
*only* exclusion `T[i-1][b]` instead of a `0`-valued inclusion.  Used
solely as the comparison point for the refinement claim C6. -/
def knapExcl : List (ℕ × ℕ) → ℕ → ℕ
  | [], _ => 0
  | (c, p) :: rest, b =>
      if c ≤ b then max (knapExcl rest b) (knapExcl rest (b - c) + p)
      else knapExcl rest b

/-- Scaled cost of a list of `(cost, profit)` pairs. -/
def coutCentimes (l : List (ℕ × ℕ)) : ℕ := (l.map Prod.fst).sum

/-- Scaled profit of a list of `(cost, profit)` pairs. -/
def beneficeCentimes (l : List (ℕ × ℕ)) : ℕ := (l.map Prod.snd).sum

/-- Proof-level form of the backtracking walk: the input list is the
reversed sequence of `(action, (cost, profit))` triples, and the
output is the taken triples in the order the walk discovers them. -/
def extract : List (Action × ℕ × ℕ) → ℕ → List (Action × ℕ × ℕ)
  | [], _ => []
  | (a, c, p) :: rest, b =>
      if b = 0 then []
      else if knap ((c, p) :: rest.map Prod.snd) b ≠ knap (rest.map Prod.snd) b then
        (a, c, p) :: extract rest (b - c)
      else extract rest b

/-! ## Option-checked embedding of the table/backtracking list
accesses (for the index-safety claim C10) -/

/-- `buildRow` with every read of the previous row done through the
bounds-checked `List.get?`. -/
def buildRowChecked (prev : List ℕ) (c p : ℕ) (B : ℕ) : Option (List ℕ) :=
  (List.range (B + 1)).mapM fun b => do
    let ex ← prev.get? b
    let inc ← if c ≤ b then do
        let v ← prev.get? (b - c)
        pure (v + p)
      else pure 0
    pure (max ex inc)

/-- Rows 1..n with checked accesses. -/
def tableAuxChecked (prev : List ℕ) (B : ℕ) :
    List (ℕ × ℕ) → Option (List (List ℕ))
  | [] => some []
  | (c, p) :: rest => do
      let r ← buildRowChecked prev c p B
      let rs ← tableAuxChecked r B rest
      pure (r :: rs)

/-- `creer_table_dynamique` with checked accesses. -/
def creerTableChecked (cbs : List (ℕ × ℕ)) (B : ℕ) : Option (List (List ℕ)) := do
  let rs ← tableAuxChecked (List.replicate (B + 1) 0) B cbs
  pure (List.replicate (B + 1) 0 :: rs)

/-- The backtracking loop with every table, action and cost access
bounds-checked, and the budget level carried as an integer so that a
negative value is observable (it would make `Int.toNat` lookups and
the final subtraction land out of the intended range). -/
def retrouverAuxChecked (actions : List Action) (cbs : List (ℕ × ℕ))
    (table : List (List ℕ)) : ℕ → ℤ → Option (List Action)
  | 0, _ => some []
  | i + 1, b =>
      if b ≤ 0 then some []
      else do
        let row ← table.get? (i + 1)
        let prow ← table.get? i
        let cur ← row.get? b.toNat
        let pre ← prow.get? b.toNat
        if cur ≠ pre then do
          let a ← actions.get? i
          let cp ← cbs.get? i
          if (cp.1 : ℤ) ≤ b then do
            let rest ← retrouverAuxChecked actions cbs table i (b - cp.1)
            pure (a :: rest)
          else none
        else retrouverAuxChecked actions cbs table i b

/-- The invariant carried by the running best of
`trouver_meilleure_combinaison`. -/
def MeilleureInv (actions : List Action) (budget : ℚ) (s : Solution) : Prop :=
  s.cout_total = coutTotal s.actions ∧
  s.benefice_total = beneficeTotal s.actions ∧
  s.actions.Sublist actions ∧ s.cout_total ≤ budget

/-- All combinations the exhaustive optimizer enumerates. -/
def toutesCombinaisons (actions : List Action) : List (List Action) :=
  (List.range' 1 actions.length).flatMap (fun k => combinations k actions)

/-- The ideal form of a table row: column `b` holds `knap l b`, where
`l` is the reversed prefix of scaled pairs already processed. -/
def rowOf (l : List (ℕ × ℕ)) (B : ℕ) : List ℕ :=
  (List.range (B + 1)).map (knap l)

/-- The triples (action, scaled cost, scaled profit) the backtracking
walk selects, in the (reversed) order it discovers them. -/
def dpChoisis (actions : List Action) (budget : ℚ) : List (Action × ℕ × ℕ) :=
  extract ((actions.map (fun a => (a, centimes a))).reverse)
    ((pyInt (budget * 100)).toNat)

/-- A valid asset: positive cost and positive profit percentage (the
ingestion filter `cout <= 0 or benefice_pct <= 0` rejects the rest). -/
def ActionValide (a : Action) : Prop := 0 < a.cout ∧ 0 < a.benefice_pct

/-- The asset's cost is a whole, positive number of centimes, so the
`int(cout * 100)` scaling is lossless. -/
def CoutEntier (a : Action) : Prop := ∃ cc : ℕ, 0 < cc ∧ a.cout * 100 = (cc : ℚ)

/-- The asset's derived euro profit is a whole number of centimes, so
the `int(benefice_euros * 100)` scaling is lossless. -/
def BeneficeEntier (a : Action) : Prop := ∃ pc : ℕ, benefice_euros a * 100 = (pc : ℚ)

/-! ## Basic lemmas about totals -/

theorem coutTotal_nil : coutTotal [] = 0 := rfl

theorem beneficeTotal_nil : beneficeTotal [] = 0 := rfl

theorem coutTotal_cons (a : Action) (l : List Action) :
    coutTotal (a :: l) = a.cout + coutTotal l := by
  simp [coutTotal]

theorem beneficeTotal_cons (a : Action) (l : List Action) :
    beneficeTotal (a :: l) = benefice_euros a + beneficeTotal l := by
  simp [beneficeTotal]

theorem coutTotal_perm {l₁ l₂ : List Action} (h : l₁.Perm l₂) :
    coutTotal l₁ = coutTotal l₂ :=
  (h.map Action.cout).sum_eq

theorem beneficeTotal_perm {l₁ l₂ : List Action} (h : l₁.Perm l₂) :
    beneficeTotal l₁ = beneficeTotal l₂ :=
  (h.map benefice_euros).sum_eq

theorem coutTotal_pos {l : List Action} (hne : l ≠ [])
    (h : ∀ a ∈ l, 0 < a.cout) : 0 < coutTotal l := by
  induction l with
  | nil => exact absurd rfl hne
  | cons a rest ih =>
      rw [coutTotal_cons]
      rcases rest with _ | ⟨b, rest'⟩
      · simpa [coutTotal] using h a (by simp)
      · have h1 := h a (by simp)
        have h2 := ih (by simp) (fun x hx => h x (by simp [hx]))
        linarith

/-! ## Exhaustive optimizer: enumeration and fold lemmas -/

theorem mem_combinations {k : ℕ} {l s : List Action} :
    s ∈ combinations k l ↔ s.Sublist l ∧ s.length = k := by
  induction l generalizing k s with
  | nil =>
      cases k with
      | zero =>
          simp only [combinations, List.mem_singleton]
          constructor
          · rintro rfl; exact ⟨List.Sublist.refl _, rfl⟩
          · rintro ⟨hs, hlen⟩
            exact List.eq_nil_of_length_eq_zero hlen
      | succ k =>
          simp only [combinations, List.not_mem_nil, false_iff]
          rintro ⟨hs, hlen⟩
          have h1 := hs.length_le
          simp only [List.length_nil, Nat.le_zero] at h1
          omega
  | cons a rest ih =>
      cases k with
      | zero =>
          simp only [combinations, List.mem_singleton]
          constructor
          · rintro rfl; exact ⟨List.nil_sublist _, rfl⟩
          · rintro ⟨_, hlen⟩
            exact (List.eq_nil_of_length_eq_zero hlen)
      | succ k =>
          simp only [combinations, List.mem_append, List.mem_map]
          constructor
          · rintro (⟨t, ht, rfl⟩ | hs)
            · obtain ⟨hts, htl⟩ := ih.mp ht
              exact ⟨hts.cons₂ a, by simp [htl]⟩
            · obtain ⟨hts, htl⟩ := ih.mp hs
              exact ⟨hts.cons a, htl⟩
          · rintro ⟨hs, hlen⟩
            cases hs with
            | cons _ hs' => exact Or.inr (ih.mpr ⟨hs', hlen⟩)
            | cons₂ _ hs' =>
                exact Or.inl ⟨_, ih.mpr ⟨hs', by simpa using hlen⟩, rfl⟩

theorem considerer_inv {actions : List Action} {budget : ℚ} {best : Solution}
    {combo : List Action} (hc : combo.Sublist actions)
    (h : MeilleureInv actions budget best) :
    MeilleureInv actions budget (considerer budget best combo) := by
  unfold considerer calculer_benefice_total
  dsimp only
  split
  · split
    · exact ⟨rfl, rfl, hc, by assumption⟩
    · exact h
  · exact h

theorem considerer_benefice_le (budget : ℚ) (best : Solution) (combo : List Action) :
    best.benefice_total ≤ (considerer budget best combo).benefice_total := by
  unfold considerer calculer_benefice_total
  dsimp only
  split
  · split
    · exact le_of_lt (by assumption)
    · exact le_refl _
  · exact le_refl _

theorem considerer_hit {budget : ℚ} (best : Solution) {combo : List Action}
    (h : coutTotal combo ≤ budget) :
    beneficeTotal combo ≤ (considerer budget best combo).benefice_total := by
  unfold considerer calculer_benefice_total
  dsimp only
  rw [if_pos h]
  split
  · exact le_refl _
  · exact le_of_not_lt (by assumption)

theorem foldl_considerer_inv {actions : List Action} {budget : ℚ}
    {L : List (List Action)} (hL : ∀ c ∈ L, c.Sublist actions)
    {best : Solution} (h : MeilleureInv actions budget best) :
    MeilleureInv actions budget (L.foldl (considerer budget) best) := by
  induction L generalizing best with
  | nil => exact h
  | cons c L ih =>
      exact ih (fun x hx => hL x (by simp [hx]))
        (considerer_inv (hL c (by simp)) h)

theorem foldl_considerer_benefice_le (budget : ℚ) (L : List (List Action))
    (best : Solution) :
    best.benefice_total ≤ (L.foldl (considerer budget) best).benefice_total := by
  induction L generalizing best with
  | nil => exact le_refl _
  | cons c L ih =>
      exact le_trans (considerer_benefice_le budget best c) (ih _)

theorem foldl_considerer_hit {budget : ℚ} {L : List (List Action)}
    {combo : List Action} (hmem : combo ∈ L) (hfeas : coutTotal combo ≤ budget)
    (best : Solution) :
    beneficeTotal combo ≤ (L.foldl (considerer budget) best).benefice_total := by
  induction L generalizing best with
  | nil => cases hmem
  | cons c L ih =>
      rcases List.mem_cons.mp hmem with rfl | hmem'
      · exact le_trans (considerer_hit best hfeas)
          (foldl_considerer_benefice_le budget L _)
      · exact ih hmem' _

/-- Flattening the size-indexed double fold of
`trouver_meilleure_combinaison` into a single fold. -/
theorem foldl_foldl_eq_foldl_bind {α β γ : Type} (g : γ → β → γ)
    (f : α → List β) (ks : List α) (init : γ) :
    ks.foldl (fun best k => (f k).foldl g best) init =
      (ks.flatMap f).foldl g init := by
  induction ks generalizing init with
  | nil => rfl
  | cons k ks ih => simp [List.foldl_append, ih]

theorem trouver_eq_foldl (actions : List Action) (budget : ℚ) :
    trouver_meilleure_combinaison actions budget =
      (toutesCombinaisons actions).foldl (considerer budget) ⟨[], 0, 0⟩ := by
  unfold trouver_meilleure_combinaison toutesCombinaisons
  exact foldl_foldl_eq_foldl_bind _ _ _ _

theorem mem_toutesCombinaisons {actions s : List Action}
    (hs : s.Sublist actions) (hne : s ≠ []) : s ∈ toutesCombinaisons actions := by
  refine List.mem_flatMap.mpr ⟨s.length, ?_, mem_combinations.mpr ⟨hs, rfl⟩⟩
  have h1 : 1 ≤ s.length := by
    cases s with
    | nil => exact absurd rfl hne
    | cons _ _ => simp
  have h2 : s.length ≤ actions.length := hs.length_le
  simp only [List.mem_range'_1]
  omega

theorem toutesCombinaisons_sublist {actions : List Action} :
    ∀ c ∈ toutesCombinaisons actions, c.Sublist actions := by
  intro c hc
  obtain ⟨k, _, hc'⟩ := List.mem_flatMap.mp hc
  exact (mem_combinations.mp hc').1

theorem toutesCombinaisons_ne_nil {actions : List Action} :
    ∀ c ∈ toutesCombinaisons actions, c ≠ [] := by
  intro c hc
  obtain ⟨k, hk, hc'⟩ := List.mem_flatMap.mp hc
  obtain ⟨_, hlen⟩ := mem_combinations.mp hc'
  intro h
  subst h
  simp only [List.mem_range'_1] at hk
  simp at hlen
  omega

/-- Feasibility and well-formedness of the exhaustive result. -/
theorem trouver_inv (actions : List Action) {budget : ℚ} (hb : 0 ≤ budget) :
    MeilleureInv actions budget (trouver_meilleure_combinaison actions budget) := by
  rw [trouver_eq_foldl]
  exact foldl_considerer_inv toutesCombinaisons_sublist
    ⟨rfl, rfl, List.nil_sublist _, by simpa using hb⟩

/-- The exhaustive result dominates every feasible subsequence. -/
theorem trouver_upper {actions : List Action} {budget : ℚ} {s : List Action}
    (hs : s.Sublist actions) (hfeas : coutTotal s ≤ budget) :
    beneficeTotal s ≤ (trouver_meilleure_combinaison actions budget).benefice_total := by
  rw [trouver_eq_foldl]
  rcases eq_or_ne s [] with rfl | hne
  · simpa [beneficeTotal] using
      foldl_considerer_benefice_le budget (toutesCombinaisons actions) ⟨[], 0, 0⟩
  · exact foldl_considerer_hit (mem_toutesCombinaisons hs hne) hfeas _

/-! ## Greedy optimizer: lemmas -/

theorem insertRatioDesc_perm (a : Action) (l : List Action) :
    (insertRatioDesc a l).Perm (a :: l) := by
  induction l with
  | nil => exact List.Perm.refl _
  | cons b rest ih =>
      unfold insertRatioDesc
      split
      · exact ((ih.cons b).trans (List.Perm.swap a b rest))
      · exact List.Perm.refl _

theorem trierParRatio_perm (l : List Action) : (trierParRatio l).Perm l := by
  induction l with
  | nil => exact List.Perm.refl _
  | cons a rest ih =>
      exact (insertRatioDesc_perm a (trierParRatio rest)).trans (ih.cons a)

theorem selectionGloutonne_sublist (l : List Action) (r : ℚ) :
    (selectionGloutonne l r).Sublist l := by
  induction l generalizing r with
  | nil => exact List.Sublist.refl _
  | cons a rest ih =>
      unfold selectionGloutonne
      split
      · exact (ih _).cons₂ a
      · exact (ih _).cons a

theorem selectionGloutonne_cout_le {l : List Action} {r : ℚ} (hr : 0 ≤ r) :
    coutTotal (selectionGloutonne l r) ≤ r := by
  induction l generalizing r with
  | nil => simpa [selectionGloutonne, coutTotal]
  | cons a rest ih =>
      unfold selectionGloutonne
      split
      · rename_i h
        rw [coutTotal_cons]
        have := ih (r := r - a.cout) (by linarith)
        linarith
      · exact ih hr

theorem selectionGloutonne_nil_of_nonpos {l : List Action} {r : ℚ}
    (hpos : ∀ a ∈ l, 0 < a.cout) (hr : r ≤ 0) :
    selectionGloutonne l r = [] := by
  induction l with
  | nil => rfl
  | cons a rest ih =>
      unfold selectionGloutonne
      rw [if_neg (by have := hpos a (by simp); linarith)]
      exact ih (fun x hx => hpos x (by simp [hx]))

/-! ## The `knap` recurrence: maximality and tie behaviour -/

theorem coutCentimes_nil : coutCentimes [] = 0 := rfl

theorem coutCentimes_cons (x : ℕ × ℕ) (l : List (ℕ × ℕ)) :
    coutCentimes (x :: l) = x.1 + coutCentimes l := by simp [coutCentimes]

theorem beneficeCentimes_cons (x : ℕ × ℕ) (l : List (ℕ × ℕ)) :
    beneficeCentimes (x :: l) = x.2 + beneficeCentimes l := by simp [beneficeCentimes]

/-- The defining equation of `knap` on a cons cell. -/
theorem knap_cons (c p : ℕ) (rest : List (ℕ × ℕ)) (b : ℕ) :
    knap ((c, p) :: rest) b =
      max (knap rest b) (if c ≤ b then knap rest (b - c) + p else 0) := rfl

/-- Upper bound: `knap` dominates every feasible subsequence. -/
theorem knap_upper {l s : List (ℕ × ℕ)} {b : ℕ} (hs : s.Sublist l)
    (hc : coutCentimes s ≤ b) : beneficeCentimes s ≤ knap l b := by
  induction l generalizing s b with
  | nil =>
      rw [List.sublist_nil.mp hs]
      simp [knap, beneficeCentimes]
  | cons x rest ih =>
      obtain ⟨c, p⟩ := x
      cases hs with
      | cons _ hs' =>
          exact le_trans (ih hs' hc) (le_max_left _ _)
      | @cons₂ t _ _ hs' =>
          rw [coutCentimes_cons] at hc
          have hcb : c ≤ b := le_trans (Nat.le_add_right _ _) hc
          have hct : coutCentimes t ≤ b - c := by omega
          calc beneficeCentimes ((c, p) :: t) = p + beneficeCentimes t := by
                rw [beneficeCentimes_cons]
          _ ≤ p + knap rest (b - c) := by
                have := ih hs' hct; omega
          _ ≤ knap ((c, p) :: rest) b := by
                rw [knap_cons, if_pos hcb]
                omega

/-- Achievement: some feasible subsequence attains `knap`. -/
theorem knap_achieved (l : List (ℕ × ℕ)) (b : ℕ) :
    ∃ s : List (ℕ × ℕ), s.Sublist l ∧ coutCentimes s ≤ b ∧
      beneficeCentimes s = knap l b := by
  induction l generalizing b with
  | nil => exact ⟨[], List.Sublist.refl _, by simp [coutCentimes], by simp [beneficeCentimes, knap]⟩
  | cons x rest ih =>
      obtain ⟨c, p⟩ := x
      by_cases hcb : c ≤ b
      · rcases le_or_lt (knap rest (b - c) + p) (knap rest b) with hle | hlt
        · obtain ⟨s, hs, hsc, hsb⟩ := ih b
          refine ⟨s, hs.cons _, hsc, ?_⟩
          rw [knap_cons, if_pos hcb, hsb, max_eq_left hle]
        · obtain ⟨s, hs, hsc, hsb⟩ := ih (b - c)
          refine ⟨(c, p) :: s, hs.cons₂ _, ?_, ?_⟩
          · rw [coutCentimes_cons]; omega
          · rw [knap_cons, if_pos hcb, max_eq_right (le_of_lt hlt),
              beneficeCentimes_cons, hsb]
            omega
      · obtain ⟨s, hs, hsc, hsb⟩ := ih b
        refine ⟨s, hs.cons _, hsc, ?_⟩
        rw [knap_cons, if_neg hcb, hsb]
        omega

/-- If including the head is infeasible, the table entry equals pure
exclusion (the `prendre = 0` branch never wins). -/
theorem knap_cons_of_lt {c p : ℕ} {rest : List (ℕ × ℕ)} {b : ℕ} (h : b < c) :
    knap ((c, p) :: rest) b = knap rest b := by
  rw [knap_cons, if_neg (by omega), Nat.max_zero]

/-- The backtracking marker: a changed entry forces feasibility of the
head and the exact inclusion value. -/
theorem knap_cons_ne {c p : ℕ} {rest : List (ℕ × ℕ)} {b : ℕ}
    (h : knap ((c, p) :: rest) b ≠ knap rest b) :
    c ≤ b ∧ knap ((c, p) :: rest) b = knap rest (b - c) + p := by
  by_cases hcb : c ≤ b
  · refine ⟨hcb, ?_⟩
    have hform : knap ((c, p) :: rest) b =
        max (knap rest b) (knap rest (b - c) + p) := by
      rw [knap_cons, if_pos hcb]
    rcases max_cases (knap rest b) (knap rest (b - c) + p) with ⟨heq, _⟩ | ⟨heq, _⟩
    · exact absurd (hform.trans heq) h
    · exact hform.trans heq
  · exact absurd (knap_cons_of_lt (by omega)) h

/-- With positive scaled costs, budget level 0 admits nothing. -/
theorem knap_zero {l : List (ℕ × ℕ)} (h : ∀ x ∈ l, 1 ≤ x.1) : knap l 0 = 0 := by
  induction l with
  | nil => rfl
  | cons x rest ih =>
      obtain ⟨c, p⟩ := x
      have hc : 1 ≤ c := h (c, p) (by simp)
      rw [knap_cons_of_lt (by omega)]
      exact ih (fun y hy => h y (by simp [hy]))

/-- The spec's §9 equivalence: treating an infeasible inclusion as `0`
is the same recurrence as considering only exclusion. -/
theorem knap_eq_knapExcl (l : List (ℕ × ℕ)) (b : ℕ) : knap l b = knapExcl l b := by
  induction l generalizing b with
  | nil => rfl
  | cons x rest ih =>
      obtain ⟨c, p⟩ := x
      by_cases hcb : c ≤ b
      · rw [knap_cons, if_pos hcb, knapExcl, if_pos hcb, ih, ih]
      · rw [knap_cons_of_lt (by omega), knapExcl, if_neg hcb, ih]

/-! ## Bridge: the materialized table computes `knap` -/

theorem getD_map_range {f : ℕ → ℕ} {n b : ℕ} (h : b < n) :
    ((List.range n).map f).getD b 0 = f b := by
  rw [List.getD_eq_getElem?_getD, List.getElem?_map, List.getElem?_range h]
  rfl

theorem rowOf_getD {l : List (ℕ × ℕ)} {B b : ℕ} (h : b ≤ B) :
    (rowOf l B).getD b 0 = knap l b :=
  getD_map_range (by omega)

theorem replicate_eq_rowOf_nil (B : ℕ) :
    List.replicate (B + 1) 0 = rowOf [] B := by
  unfold rowOf
  rw [show List.map (knap []) (List.range (B + 1)) =
      List.map (fun _ => (0 : ℕ)) (List.range (B + 1)) from
      List.map_congr_left (fun b _ => rfl),
    List.map_const', List.length_range]

theorem buildRow_rowOf (l : List (ℕ × ℕ)) (c p B : ℕ) :
    buildRow (rowOf l B) c p B = rowOf ((c, p) :: l) B := by
  unfold buildRow rowOf
  refine List.map_congr_left fun b hb => ?_
  rw [List.mem_range] at hb
  rw [getD_map_range hb, knap_cons]
  by_cases hcb : c ≤ b
  · rw [if_pos hcb, if_pos hcb, getD_map_range (by omega)]
  · rw [if_neg hcb, if_neg hcb]

theorem tableAux_rowOf (B : ℕ) :
    ∀ (cbs l : List (ℕ × ℕ)),
      tableAux (rowOf l B) B cbs =
        (List.range cbs.length).map
          (fun j => rowOf ((cbs.take (j + 1)).reverse ++ l) B) := by
  intro cbs
  induction cbs with
  | nil => intro l; rfl
  | cons x rest ih =>
      intro l
      obtain ⟨c, p⟩ := x
      show buildRow (rowOf l B) c p B ::
          tableAux (buildRow (rowOf l B) c p B) B rest = _
      rw [buildRow_rowOf, ih ((c, p) :: l), List.length_cons,
        List.range_succ_eq_map, List.map_cons, List.map_map]
      congr 1
      refine List.map_congr_left fun j _ => ?_
      simp only [Function.comp_apply, List.take_succ_cons, List.reverse_cons,
        List.append_assoc, List.singleton_append]

/-- Row `i`, column `b` of the table holds the `knap` value of the
reversed length-`i` prefix. -/
theorem table_getD {cbs : List (ℕ × ℕ)} {B i b : ℕ}
    (hi : i ≤ cbs.length) (hb : b ≤ B) :
    ((creer_table_dynamique cbs B).getD i []).getD b 0 =
      knap ((cbs.take i).reverse) b := by
  unfold creer_table_dynamique
  rw [replicate_eq_rowOf_nil, tableAux_rowOf]
  cases i with
  | zero =>
      simp only [List.getD_cons_zero, List.take_zero, List.reverse_nil]
      exact rowOf_getD hb
  | succ j =>
      rw [List.getD_cons_succ]
      have hrow : (List.map
          (fun j => rowOf ((List.take (j + 1) cbs).reverse ++ []) B)
          (List.range cbs.length)).getD j [] =
          rowOf ((List.take (j + 1) cbs).reverse ++ []) B := by
        rw [List.getD_eq_getElem?_getD, List.getElem?_map,
          List.getElem?_range (by omega)]
        rfl
      rw [hrow, List.append_nil]
      exact rowOf_getD hb

/-! ## Bridge: the backtracking loop extracts an optimal subset -/

theorem extract_sublist (xs : List (Action × ℕ × ℕ)) (b : ℕ) :
    (extract xs b).Sublist xs := by
  induction xs generalizing b with
  | nil => exact List.Sublist.refl _
  | cons x rest ih =>
      obtain ⟨a, c, p⟩ := x
      show (if b = 0 then [] else _).Sublist _
      split
      · exact List.nil_sublist _
      · split
        · exact (ih _).cons₂ _
        · exact (ih _).cons _

theorem extract_spec {xs : List (Action × ℕ × ℕ)} {b : ℕ}
    (hcost : ∀ t ∈ xs, 1 ≤ t.2.1) :
    coutCentimes ((extract xs b).map Prod.snd) ≤ b ∧
      beneficeCentimes ((extract xs b).map Prod.snd) =
        knap (xs.map Prod.snd) b := by
  induction xs generalizing b with
  | nil =>
      exact ⟨by simp [extract, coutCentimes], by simp [extract, beneficeCentimes, knap]⟩
  | cons x rest ih =>
      obtain ⟨a, c, p⟩ := x
      have hcost' : ∀ t ∈ rest, 1 ≤ t.2.1 := fun t ht => hcost t (by simp [ht])
      show coutCentimes ((if b = 0 then [] else _).map Prod.snd) ≤ b ∧
        beneficeCentimes ((if b = 0 then [] else _).map Prod.snd) = _
      split
      · rename_i hb0
        subst hb0
        refine ⟨by simp [coutCentimes], ?_⟩
        rw [List.map_cons]
        have hall : ∀ y ∈ (c, p) :: rest.map Prod.snd, 1 ≤ y.1 := by
          intro y hy
          rcases List.mem_cons.mp hy with rfl | hy'
          · exact hcost (a, c, p) (by simp)
          · obtain ⟨t, ht, rfl⟩ := List.mem_map.mp hy'
            exact hcost' t ht
        rw [knap_zero hall]
        simp [beneficeCentimes]
      · split
        · rename_i hb0 hne
          obtain ⟨hcb, heq⟩ := knap_cons_ne hne
          obtain ⟨ihc, ihb⟩ := ih (b := b - c) hcost'
          constructor
          · simp only [List.map_cons, coutCentimes_cons]
            omega
          · simp only [List.map_cons, beneficeCentimes_cons, heq, ihb]
            omega
        · rename_i hb0 hne
          rw [not_not] at hne
          obtain ⟨ihc, ihb⟩ := ih (b := b) hcost'
          refine ⟨ihc, ?_⟩
          rw [List.map_cons, ihb, hne]

theorem map_snd_pairs (actions : List Action) :
    (actions.map (fun a => (a, centimes a))).map Prod.snd =
      convertir_actions_en_centimes actions := by
  unfold convertir_actions_en_centimes
  rw [List.map_map]
  rfl

/-- The index-based backtracking over the materialized table equals
the structural `extract` walk over the reversed action prefix. -/
theorem retrouverAux_eq_extract (actions : List Action) (B : ℕ) :
    ∀ i b : ℕ, i ≤ actions.length → b ≤ B →
      retrouverAux actions (convertir_actions_en_centimes actions)
          (creer_table_dynamique (convertir_actions_en_centimes actions) B) i b =
        (extract (((actions.map (fun a => (a, centimes a))).take i).reverse) b).map
          Prod.fst := by
  intro i
  induction i with
  | zero => intro b _ _; rfl
  | succ i ih =>
      intro b hi hb
      have hzl : (actions.map (fun a => (a, centimes a))).length = actions.length :=
        List.length_map _ _
      have hcl : (convertir_actions_en_centimes actions).length = actions.length :=
        List.length_map _ _
      have hia : i < actions.length := by omega
      have hiz : i < (actions.map (fun a => (a, centimes a))).length := by omega
      have hic : i < (convertir_actions_en_centimes actions).length := by omega
      rcases hcent : centimes (actions[i]) with ⟨ci, pi⟩
      have htakez : (actions.map (fun a => (a, centimes a))).take (i + 1) =
          (actions.map (fun a => (a, centimes a))).take i ++
            [(actions[i], (ci, pi))] := by
        rw [List.take_succ, List.getElem?_eq_getElem hiz]
        simp [List.getElem_map, hcent]
      have htakec : (convertir_actions_en_centimes actions).take (i + 1) =
          (convertir_actions_en_centimes actions).take i ++ [(ci, pi)] := by
        rw [List.take_succ, List.getElem?_eq_getElem hic]
        simp [convertir_actions_en_centimes, List.getElem_map, hcent]
      have hrest : ((actions.map (fun a => (a, centimes a))).take i).reverse.map
          Prod.snd = ((convertir_actions_en_centimes actions).take i).reverse := by
        rw [List.map_reverse, List.map_take, map_snd_pairs]
      have e1 : ((creer_table_dynamique (convertir_actions_en_centimes actions)
          B).getD (i + 1) []).getD b 0 =
          knap (((convertir_actions_en_centimes actions).take (i + 1)).reverse) b :=
        table_getD (by omega) hb
      have e2 : ((creer_table_dynamique (convertir_actions_en_centimes actions)
          B).getD i []).getD b 0 =
          knap (((convertir_actions_en_centimes actions).take i).reverse) b :=
        table_getD (by omega) hb
      rw [htakez, List.reverse_append, List.reverse_singleton, List.singleton_append]
      simp only [retrouverAux, extract]
      by_cases hb0 : b = 0
      · rw [if_pos hb0, if_pos hb0]
        rfl
      · rw [if_neg hb0, if_neg hb0]
        have hcondeq : ((creer_table_dynamique (convertir_actions_en_centimes actions)
            B).getD (i + 1) []).getD b 0 ≠
            ((creer_table_dynamique (convertir_actions_en_centimes actions)
            B).getD i []).getD b 0 ↔
            knap ((ci, pi) ::
                (((actions.map (fun a => (a, centimes a))).take i).reverse.map
                  Prod.snd)) b ≠
              knap ((((actions.map (fun a => (a, centimes a))).take i).reverse.map
                  Prod.snd)) b := by
          rw [e1, e2, hrest, htakec, List.reverse_append, List.reverse_singleton,
            List.singleton_append]
        by_cases hcond : ((creer_table_dynamique (convertir_actions_en_centimes
            actions) B).getD (i + 1) []).getD b 0 ≠
            ((creer_table_dynamique (convertir_actions_en_centimes actions)
            B).getD i []).getD b 0
        · rw [if_pos hcond, if_pos (hcondeq.mp hcond)]
          have hgetDa : actions.getD i ⟨"", 0, 0⟩ = actions[i] := by
            rw [List.getD_eq_getElem _ _ hia]
          have hgetDc : (convertir_actions_en_centimes actions).getD i (0, 0) =
              (ci, pi) := by
            rw [List.getD_eq_getElem _ _ hic]
            simp [convertir_actions_en_centimes, List.getElem_map, hcent]
          rw [hgetDa, hgetDc, List.map_cons]
          congr 1
          exact ih (b - ci) (by omega) (by omega)
        · rw [if_neg hcond, if_neg (fun h => hcond (hcondeq.mpr h))]
          exact ih b (by omega) hb

/-! ## Cast helpers for `pyInt` and the centime scaling -/

theorem pyInt_natCast (n : ℕ) : pyInt (n : ℚ) = n := by
  unfold pyInt
  rw [if_pos (by positivity)]
  exact_mod_cast Int.floor_natCast n

theorem toNat_pyInt_cast_le {q : ℚ} (h : 0 ≤ q) : ((pyInt q).toNat : ℚ) ≤ q := by
  unfold pyInt
  rw [if_pos h]
  calc ((⌊q⌋.toNat : ℕ) : ℚ) = ((⌊q⌋.toNat : ℤ) : ℚ) := by push_cast; rfl
  _ = ((⌊q⌋ : ℤ) : ℚ) := by rw [Int.toNat_of_nonneg (Int.floor_nonneg.mpr h)]
  _ ≤ q := Int.floor_le q

theorem le_toNat_pyInt {q : ℚ} {n : ℕ} (hq : 0 ≤ q) (h : (n : ℚ) ≤ q) :
    n ≤ (pyInt q).toNat := by
  unfold pyInt
  rw [if_pos hq]
  have h1 : (n : ℤ) ≤ ⌊q⌋ := Int.le_floor.mpr (by exact_mod_cast h)
  omega

theorem pyInt_nonpos {q : ℚ} (h : q ≤ 0) : pyInt q ≤ 0 := by
  unfold pyInt
  split
  · have hq : q = 0 := le_antisymm h (by assumption)
    simp [hq]
  · exact Int.ceil_le.mpr (by exact_mod_cast h)

theorem centimes_fst_eq {a : Action} {cc : ℕ} (h : a.cout * 100 = (cc : ℚ)) :
    (centimes a).1 = cc := by
  unfold centimes
  dsimp only
  rw [h, pyInt_natCast]
  omega

theorem centimes_snd_eq {a : Action} {pc : ℕ} (h : benefice_euros a * 100 = (pc : ℚ)) :
    (centimes a).2 = pc := by
  unfold centimes
  dsimp only
  rw [h, pyInt_natCast]
  omega

theorem centimes_fst_pos {a : Action} (h : CoutEntier a) : 1 ≤ (centimes a).1 := by
  obtain ⟨cc, hpos, heq⟩ := h
  rw [centimes_fst_eq heq]
  omega

theorem coutTotal_scaled {s : List Action}
    (h : ∀ a ∈ s, a.cout * 100 = ((centimes a).1 : ℚ)) :
    coutTotal s * 100 = (coutCentimes (s.map centimes) : ℚ) := by
  induction s with
  | nil => simp [coutTotal, coutCentimes]
  | cons a rest ih =>
      rw [coutTotal_cons, List.map_cons, coutCentimes_cons]
      have ha := h a (by simp)
      have ih' := ih (fun x hx => h x (by simp [hx]))
      have hd : (a.cout + coutTotal rest) * 100 =
          a.cout * 100 + coutTotal rest * 100 := by ring
      rw [hd, ha, ih']
      push_cast
      ring

theorem beneficeTotal_scaled {s : List Action}
    (h : ∀ a ∈ s, benefice_euros a * 100 = ((centimes a).2 : ℚ)) :
    beneficeTotal s * 100 = (beneficeCentimes (s.map centimes) : ℚ) := by
  induction s with
  | nil => simp [beneficeTotal, beneficeCentimes]
  | cons a rest ih =>
      rw [beneficeTotal_cons, List.map_cons, beneficeCentimes_cons]
      have ha := h a (by simp)
      have ih' := ih (fun x hx => h x (by simp [hx]))
      have hd : (benefice_euros a + beneficeTotal rest) * 100 =
          benefice_euros a * 100 + beneficeTotal rest * 100 := by ring
      rw [hd, ha, ih']
      push_cast
      ring

/-! ## The DP result, characterized through `dpChoisis` -/

theorem algorithme_sac_a_dos_eq (actions : List Action) (budget : ℚ) :
    algorithme_sac_a_dos actions budget =
      calculer_solution (((dpChoisis actions budget).map Prod.fst).reverse) := by
  unfold algorithme_sac_a_dos retrouver_actions dpChoisis
  dsimp only
  rw [retrouverAux_eq_extract actions ((pyInt (budget * 100)).toNat) actions.length
    ((pyInt (budget * 100)).toNat) (le_refl _) (le_refl _)]
  rw [List.take_of_length_le (by rw [List.length_map])]

theorem dpChoisis_mem {actions : List Action} {budget : ℚ} {t : Action × ℕ × ℕ}
    (ht : t ∈ dpChoisis actions budget) : t.1 ∈ actions ∧ t.2 = centimes t.1 := by
  have hsub := extract_sublist ((actions.map (fun a => (a, centimes a))).reverse)
    ((pyInt (budget * 100)).toNat)
  have hmem : t ∈ (actions.map (fun a => (a, centimes a))).reverse :=
    hsub.subset ht
  rw [List.mem_reverse] at hmem
  obtain ⟨a, ha, rfl⟩ := List.mem_map.mp hmem
  exact ⟨ha, rfl⟩

theorem map_snd_pairs_reverse (actions : List Action) :
    ((actions.map (fun a => (a, centimes a))).reverse).map Prod.snd =
      (convertir_actions_en_centimes actions).reverse := by
  rw [List.map_reverse, map_snd_pairs]

theorem dpChoisis_spec (actions : List Action) (budget : ℚ)
    (h1 : ∀ a ∈ actions, 1 ≤ (centimes a).1) :
    coutCentimes ((dpChoisis actions budget).map Prod.snd) ≤
        (pyInt (budget * 100)).toNat ∧
      beneficeCentimes ((dpChoisis actions budget).map Prod.snd) =
        knap ((convertir_actions_en_centimes actions).reverse)
          ((pyInt (budget * 100)).toNat) := by
  have hcost : ∀ t ∈ (actions.map (fun a => (a, centimes a))).reverse,
      1 ≤ t.2.1 := by
    intro t ht
    rw [List.mem_reverse] at ht
    obtain ⟨a, ha, rfl⟩ := List.mem_map.mp ht
    exact h1 a ha
  have hspec := extract_spec (b := (pyInt (budget * 100)).toNat) hcost
  rwa [map_snd_pairs_reverse] at hspec

theorem dpChoisis_map_centimes (actions : List Action) (budget : ℚ) :
    ((dpChoisis actions budget).map Prod.fst).map centimes =
      (dpChoisis actions budget).map Prod.snd := by
  rw [List.map_map]
  exact List.map_congr_left fun t ht => ((dpChoisis_mem ht).2).symm

theorem dpChoisis_fst_sublist (actions : List Action) (budget : ℚ) :
    (((dpChoisis actions budget).map Prod.fst).reverse).Sublist actions := by
  have h := (extract_sublist ((actions.map (fun a => (a, centimes a))).reverse)
    ((pyInt (budget * 100)).toNat)).map Prod.fst
  rw [List.map_reverse, List.map_map] at h
  have hid : (actions.map (Prod.fst ∘ fun a => (a, centimes a))) = actions := by
    rw [show (Prod.fst ∘ fun a : Action => (a, centimes a)) = fun a => a from rfl]
    exact List.map_id' actions
  rw [hid] at h
  exact List.sublist_reverse_iff.mp
    (by simpa using h)

theorem coutCentimes_reverse (l : List (ℕ × ℕ)) :
    coutCentimes l.reverse = coutCentimes l :=
  ((List.reverse_perm l).map Prod.fst).sum_eq

theorem beneficeCentimes_reverse (l : List (ℕ × ℕ)) :
    beneficeCentimes l.reverse = beneficeCentimes l :=
  ((List.reverse_perm l).map Prod.snd).sum_eq

/-- Under lossless scaling, the DP's reported profit is exactly the
table's optimal value divided by 100. -/
theorem dp_benefice_scaled (actions : List Action) (budget : ℚ)
    (hc : ∀ a ∈ actions, CoutEntier a) (hp : ∀ a ∈ actions, BeneficeEntier a) :
    (algorithme_sac_a_dos actions budget).benefice_total * 100 =
      (knap ((convertir_actions_en_centimes actions).reverse)
        ((pyInt (budget * 100)).toNat) : ℚ) := by
  rw [algorithme_sac_a_dos_eq]
  show beneficeTotal (((dpChoisis actions budget).map Prod.fst).reverse) * 100 = _
  rw [beneficeTotal_perm (List.reverse_perm _)]
  have hpoint : ∀ a ∈ (dpChoisis actions budget).map Prod.fst,
      benefice_euros a * 100 = ((centimes a).2 : ℚ) := by
    intro a ha
    obtain ⟨t, ht, rfl⟩ := List.mem_map.mp ha
    obtain ⟨hmemA, _⟩ := dpChoisis_mem ht
    obtain ⟨pc, hpc⟩ := hp t.1 hmemA
    rw [hpc, centimes_snd_eq hpc]
  rw [beneficeTotal_scaled hpoint, dpChoisis_map_centimes,
    (dpChoisis_spec actions budget (fun a ha => centimes_fst_pos (hc a ha))).2]

/-- Under lossless cost scaling, the DP's reported cost stays within
the budget. -/
theorem dp_cout_le (actions : List Action) (budget : ℚ)
    (hc : ∀ a ∈ actions, CoutEntier a) (hb : 0 ≤ budget) :
    (algorithme_sac_a_dos actions budget).cout_total ≤ budget := by
  rw [algorithme_sac_a_dos_eq]
  show coutTotal (((dpChoisis actions budget).map Prod.fst).reverse) ≤ budget
  rw [coutTotal_perm (List.reverse_perm _)]
  have hpoint : ∀ a ∈ (dpChoisis actions budget).map Prod.fst,
      a.cout * 100 = ((centimes a).1 : ℚ) := by
    intro a ha
    obtain ⟨t, ht, rfl⟩ := List.mem_map.mp ha
    obtain ⟨hmemA, _⟩ := dpChoisis_mem ht
    obtain ⟨cc, _, hcc⟩ := hc t.1 hmemA
    rw [hcc, centimes_fst_eq hcc]
  have hscaled := coutTotal_scaled hpoint
  rw [dpChoisis_map_centimes] at hscaled
  have hle := (dpChoisis_spec actions budget
    (fun a ha => centimes_fst_pos (hc a ha))).1
  have hcast : ((coutCentimes ((dpChoisis actions budget).map Prod.snd)) : ℚ) ≤
      budget * 100 :=
    le_trans (by exact_mod_cast hle)
      (toNat_pyInt_cast_le (mul_nonneg hb (by norm_num)))
  linarith

/-- The DP result's field structure: totals recomputed from the chosen
sublist of the input. -/
theorem dp_result_wf (actions : List Action) (budget : ℚ) :
    (algorithme_sac_a_dos actions budget).cout_total =
        coutTotal (algorithme_sac_a_dos actions budget).actions ∧
      (algorithme_sac_a_dos actions budget).benefice_total =
        beneficeTotal (algorithme_sac_a_dos actions budget).actions ∧
      (algorithme_sac_a_dos actions budget).actions.Sublist actions := by
  rw [algorithme_sac_a_dos_eq]
  exact ⟨rfl, rfl, dpChoisis_fst_sublist actions budget⟩

/-- Any feasible sub-permutation of the assets is dominated by the
scaled table optimum. -/
theorem knap_upper_subperm (actions : List Action) (budget : ℚ)
    (hc : ∀ a ∈ actions, CoutEntier a) (hp : ∀ a ∈ actions, BeneficeEntier a)
    (hb : 0 ≤ budget) {s : List Action} (hs : s.Subperm actions)
    (hfeas : coutTotal s ≤ budget) :
    beneficeTotal s * 100 ≤
      (knap ((convertir_actions_en_centimes actions).reverse)
        ((pyInt (budget * 100)).toNat) : ℚ) := by
  obtain ⟨t, htp, hts⟩ := hs
  have hbt : beneficeTotal t = beneficeTotal s := beneficeTotal_perm htp
  have hct : coutTotal t = coutTotal s := coutTotal_perm htp
  have hcp : ∀ a ∈ t, a.cout * 100 = ((centimes a).1 : ℚ) := by
    intro a ha
    obtain ⟨cc, _, hcc⟩ := hc a (hts.subset ha)
    rw [hcc, centimes_fst_eq hcc]
  have hpp : ∀ a ∈ t, benefice_euros a * 100 = ((centimes a).2 : ℚ) := by
    intro a ha
    obtain ⟨pc, hpc⟩ := hp a (hts.subset ha)
    rw [hpc, centimes_snd_eq hpc]
  have hsc := coutTotal_scaled hcp
  have hsb := beneficeTotal_scaled hpp
  have hsub : (t.map centimes).Sublist (convertir_actions_en_centimes actions) :=
    hts.map centimes
  have hsub' : ((t.map centimes).reverse).Sublist
      ((convertir_actions_en_centimes actions).reverse) :=
    List.sublist_reverse_iff.mpr (by simpa using hsub)
  have hcb : coutCentimes ((t.map centimes).reverse) ≤ (pyInt (budget * 100)).toNat := by
    rw [coutCentimes_reverse]
    refine le_toNat_pyInt (mul_nonneg hb (by norm_num)) ?_
    rw [← hsc, hct]
    nlinarith [hfeas]
  have hup := knap_upper hsub' hcb
  rw [beneficeCentimes_reverse] at hup
  calc beneficeTotal s * 100 = beneficeTotal t * 100 := by rw [hbt]
  _ = (beneficeCentimes (t.map centimes) : ℚ) := hsb
  _ ≤ _ := by exact_mod_cast hup

/-! ## Behaviour at non-positive budgets -/

theorem trouver_nonpos {actions : List Action} {budget : ℚ}
    (hpos : ∀ a ∈ actions, 0 < a.cout) (hb : budget ≤ 0) :
    trouver_meilleure_combinaison actions budget = ⟨[], 0, 0⟩ := by
  rw [trouver_eq_foldl]
  have hid : ∀ L : List (List Action),
      (∀ c ∈ L, c ≠ [] ∧ c.Sublist actions) →
      ∀ best, L.foldl (considerer budget) best = best := by
    intro L hL
    induction L with
    | nil => intro best; rfl
    | cons c L ih =>
        intro best
        rw [List.foldl_cons]
        have hc := hL c (by simp)
        have hcpos : 0 < coutTotal c :=
          coutTotal_pos hc.1 (fun a ha => hpos a (hc.2.subset ha))
        have hcost : ¬ coutTotal c ≤ budget := by linarith
        have hstep : considerer budget best c = best := by
          unfold considerer calculer_benefice_total
          dsimp only
          rw [if_neg hcost]
        rw [hstep]
        exact ih (fun x hx => hL x (by simp [hx])) best
  exact hid _ (fun c hc =>
    ⟨toutesCombinaisons_ne_nil c hc, toutesCombinaisons_sublist c hc⟩) _

theorem glouton_nonpos {actions : List Action} {budget : ℚ}
    (hpos : ∀ a ∈ actions, 0 < a.cout) (hb : budget ≤ 0) :
    algorithme_glouton actions budget = ⟨[], 0, 0⟩ := by
  unfold algorithme_glouton
  rw [selectionGloutonne_nil_of_nonpos
    (fun a ha => hpos a ((trierParRatio_perm actions).subset ha)) hb]
  rfl

theorem retrouverAux_zero (actions : List Action) (cbs : List (ℕ × ℕ))
    (table : List (List ℕ)) (i : ℕ) :
    retrouverAux actions cbs table i 0 = [] := by
  cases i with
  | zero => rfl
  | succ j => simp [retrouverAux]

theorem sac_nonpos {actions : List Action} {budget : ℚ} (hb : budget ≤ 0) :
    algorithme_sac_a_dos actions budget = ⟨[], 0, 0⟩ := by
  have hB : (pyInt (budget * 100)).toNat = 0 := by
    have h1 : pyInt (budget * 100) ≤ 0 := pyInt_nonpos (by linarith)
    omega
  unfold algorithme_sac_a_dos retrouver_actions
  dsimp only
  rw [hB, retrouverAux_zero]
  rfl

/-! ## The Option-checked embedding never fails -/

theorem mapM_option_some {α β : Type} {L : List α} {f : α → Option β} {g : α → β}
    (h : ∀ b ∈ L, f b = some (g b)) : L.mapM f = some (L.map g) := by
  induction L with
  | nil => rfl
  | cons x xs ih =>
      rw [List.mapM_cons, h x (by simp), ih (fun b hb => h b (by simp [hb])),
        List.map_cons]
      rfl

theorem buildRow_length (prev : List ℕ) (c p B : ℕ) :
    (buildRow prev c p B).length = B + 1 := by
  unfold buildRow
  rw [List.length_map, List.length_range]

theorem buildRowChecked_eq {prev : List ℕ} {c p B : ℕ} (h : prev.length = B + 1) :
    buildRowChecked prev c p B = some (buildRow prev c p B) := by
  unfold buildRowChecked buildRow
  refine mapM_option_some fun b hb => ?_
  rw [List.mem_range] at hb
  have hb' : b < prev.length := by omega
  have hbc' : b - c < prev.length := by omega
  by_cases hcb : c ≤ b
  · simp [hcb, List.getElem?_eq_getElem hb', List.getElem?_eq_getElem hbc']
  · simp [hcb, List.getElem?_eq_getElem hb']

theorem tableAuxChecked_eq {B : ℕ} :
    ∀ {cbs : List (ℕ × ℕ)} {prev : List ℕ}, prev.length = B + 1 →
      tableAuxChecked prev B cbs = some (tableAux prev B cbs) := by
  intro cbs
  induction cbs with
  | nil => intro prev _; rfl
  | cons x rest ih =>
      intro prev h
      obtain ⟨c, p⟩ := x
      show (do
        let r ← buildRowChecked prev c p B
        let rs ← tableAuxChecked r B rest
        pure (r :: rs)) = _
      rw [buildRowChecked_eq h, Option.bind_eq_bind, Option.some_bind,
        ih (buildRow_length prev c p B)]
      rfl

theorem creerTableChecked_eq (cbs : List (ℕ × ℕ)) (B : ℕ) :
    creerTableChecked cbs B = some (creer_table_dynamique cbs B) := by
  unfold creerTableChecked creer_table_dynamique
  rw [tableAuxChecked_eq (List.length_replicate _ _), Option.bind_eq_bind,
    Option.some_bind]
  rfl

theorem rowOf_length (l : List (ℕ × ℕ)) (B : ℕ) : (rowOf l B).length = B + 1 := by
  unfold rowOf
  rw [List.length_map, List.length_range]

theorem take_succ_reverse {α : Type} (l : List α) {i : ℕ} (h : i < l.length) :
    (l.take (i + 1)).reverse = l[i] :: (l.take i).reverse := by
  rw [List.take_succ, List.getElem?_eq_getElem h]
  simp

theorem creer_table_length (cbs : List (ℕ × ℕ)) (B : ℕ) :
    (creer_table_dynamique cbs B).length = cbs.length + 1 := by
  unfold creer_table_dynamique
  rw [replicate_eq_rowOf_nil, tableAux_rowOf]
  simp

theorem table_row_length {cbs : List (ℕ × ℕ)} {B i : ℕ} (hi : i ≤ cbs.length) :
    ((creer_table_dynamique cbs B).getD i []).length = B + 1 := by
  unfold creer_table_dynamique
  rw [replicate_eq_rowOf_nil, tableAux_rowOf]
  cases i with
  | zero => rw [List.getD_cons_zero, rowOf_length]
  | succ j =>
      rw [List.getD_cons_succ]
      have hrow : (List.map
          (fun j => rowOf ((List.take (j + 1) cbs).reverse ++ []) B)
          (List.range cbs.length)).getD j [] =
          rowOf ((List.take (j + 1) cbs).reverse ++ []) B := by
        rw [List.getD_eq_getElem?_getD, List.getElem?_map,
          List.getElem?_range (by omega)]
        rfl
      rw [hrow, rowOf_length]

/-- The fully bounds-checked backtracking loop never takes an error
branch and agrees with the unchecked loop. -/
theorem retrouverAuxChecked_eq (actions : List Action) (B : ℕ) :
    ∀ i b : ℕ, i ≤ actions.length → b ≤ B →
      retrouverAuxChecked actions (convertir_actions_en_centimes actions)
          (creer_table_dynamique (convertir_actions_en_centimes actions) B)
          i (b : ℤ) =
        some (retrouverAux actions (convertir_actions_en_centimes actions)
          (creer_table_dynamique (convertir_actions_en_centimes actions) B) i b) := by
  intro i
  induction i with
  | zero => intro b _ _; rfl
  | succ i ih =>
      intro b hi hb
      have hcl : (convertir_actions_en_centimes actions).length = actions.length :=
        List.length_map _ _
      by_cases hb0 : b = 0
      · subst hb0
        simp [retrouverAuxChecked, retrouverAux]
      · have hbpos : ¬ ((b : ℤ) ≤ 0) := by omega
        have hlen := creer_table_length (convertir_actions_en_centimes actions) B
        have h1 : (creer_table_dynamique (convertir_actions_en_centimes actions)
            B).get? (i + 1) =
            some ((creer_table_dynamique (convertir_actions_en_centimes actions)
              B).getD (i + 1) []) := by
          rw [List.get?_eq_getElem?, List.getElem?_eq_getElem (by omega),
            List.getD_eq_getElem _ _ (by omega)]
        have h2 : (creer_table_dynamique (convertir_actions_en_centimes actions)
            B).get? i =
            some ((creer_table_dynamique (convertir_actions_en_centimes actions)
              B).getD i []) := by
          rw [List.get?_eq_getElem?, List.getElem?_eq_getElem (by omega),
            List.getD_eq_getElem _ _ (by omega)]
        have hrl1 : ((creer_table_dynamique (convertir_actions_en_centimes actions)
            B).getD (i + 1) []).length = B + 1 := table_row_length (by omega)
        have hrl2 : ((creer_table_dynamique (convertir_actions_en_centimes actions)
            B).getD i []).length = B + 1 := table_row_length (by omega)
        have htn : ((b : ℤ)).toNat = b := by omega
        have h3 : ((creer_table_dynamique (convertir_actions_en_centimes actions)
            B).getD (i + 1) []).get? b =
            some (((creer_table_dynamique (convertir_actions_en_centimes actions)
              B).getD (i + 1) []).getD b 0) := by
          rw [List.get?_eq_getElem?, List.getElem?_eq_getElem (by omega)]
          exact congrArg some (List.getD_eq_getElem _ _ (by omega)).symm
        have h4 : ((creer_table_dynamique (convertir_actions_en_centimes actions)
            B).getD i []).get? b =
            some (((creer_table_dynamique (convertir_actions_en_centimes actions)
              B).getD i []).getD b 0) := by
          rw [List.get?_eq_getElem?, List.getElem?_eq_getElem (by omega)]
          exact congrArg some (List.getD_eq_getElem _ _ (by omega)).symm
        simp only [retrouverAuxChecked, retrouverAux]
        rw [if_neg hbpos, if_neg hb0]
        simp only [h1, h2, htn, h3, h4, Option.bind_eq_bind, Option.some_bind]
        by_cases hcond : ((creer_table_dynamique (convertir_actions_en_centimes
            actions) B).getD (i + 1) []).getD b 0 ≠
            ((creer_table_dynamique (convertir_actions_en_centimes actions)
            B).getD i []).getD b 0
        · rw [if_pos hcond, if_pos hcond]
          have hia : i < actions.length := by omega
          have hic : i < (convertir_actions_en_centimes actions).length := by omega
          have h5 : actions.get? i = some (actions[i]) := by
            rw [List.get?_eq_getElem?, List.getElem?_eq_getElem hia]
          have h6 : (convertir_actions_en_centimes actions).get? i =
              some ((convertir_actions_en_centimes actions)[i]) := by
            rw [List.get?_eq_getElem?, List.getElem?_eq_getElem hic]
          have hgetDa : actions.getD i ⟨"", 0, 0⟩ = actions[i] := by
            rw [List.getD_eq_getElem _ _ hia]
          have hgetDc : (convertir_actions_en_centimes actions).getD i (0, 0) =
              (convertir_actions_en_centimes actions)[i] := by
            rw [List.getD_eq_getElem _ _ hic]
          have e1 := table_getD (B := B) (b := b)
            (show i + 1 ≤ (convertir_actions_en_centimes actions).length by omega) hb
          have e2 := table_getD (B := B) (b := b)
            (show i ≤ (convertir_actions_en_centimes actions).length by omega) hb
          have hsplit := take_succ_reverse (convertir_actions_en_centimes actions) hic
          have hcb : ((convertir_actions_en_centimes actions)[i]).1 ≤ b := by
            rcases hpair : (convertir_actions_en_centimes actions)[i] with ⟨c, p⟩
            rw [e1, e2, hsplit, hpair] at hcond
            exact (knap_cons_ne hcond).1
          have hguard : (((convertir_actions_en_centimes actions)[i]).1 : ℤ) ≤
              (b : ℤ) := by omega
          simp only [h5, h6, Option.some_bind]
          rw [if_pos hguard]
          have hsub : (b : ℤ) - (((convertir_actions_en_centimes actions)[i]).1 : ℤ) =
              ((b - ((convertir_actions_en_centimes actions)[i]).1 : ℕ) : ℤ) := by
            omega
          rw [hsub, ih (b - ((convertir_actions_en_centimes actions)[i]).1)
            (by omega) (by omega), hgetDa, hgetDc]
          rfl
        · rw [if_neg hcond, if_neg hcond]
          exact ih b (by omega) hb

theorem table_skip_of_infeasible {cbs : List (ℕ × ℕ)} {B i b : ℕ}
    (hi : i < cbs.length) (hb : b ≤ B) (h : b < (cbs.get ⟨i, hi⟩).1) :
    ((creer_table_dynamique cbs B).getD (i + 1) []).getD b 0 =
      ((creer_table_dynamique cbs B).getD i []).getD b 0 := by
  rw [table_getD (by omega) hb, table_getD (by omega) hb, take_succ_reverse _ hi]
  rw [List.get_eq_getElem] at h
  rcases hpair : cbs[i] with ⟨c, p⟩
  rw [hpair] at h
  exact knap_cons_of_lt h

theorem table_ne_implies_cout_le {cbs : List (ℕ × ℕ)} {B i b : ℕ}
    (hi : i < cbs.length) (hb : b ≤ B)
    (h : ((creer_table_dynamique cbs B).getD (i + 1) []).getD b 0 ≠
      ((creer_table_dynamique cbs B).getD i []).getD b 0) :
    (cbs.get ⟨i, hi⟩).1 ≤ b := by
  rw [table_getD (by omega) hb, table_getD (by omega) hb,
    take_succ_reverse _ hi] at h
  rw [List.get_eq_getElem]
  rcases hpair : cbs[i] with ⟨c, p⟩
  rw [hpair] at h
  exact (knap_cons_ne h).1

/-! ## Claim theorems -/

/-- C4: when the candidate's total profit exceeds the reference's by
exactly 0.01, `comparer_solutions` does not issue the "candidate
better" verdict: the strict `> 0.01` test fails at the boundary and
the pair is classified as equivalent. -/
theorem claim_C4_epsilon_boundary (a s : Solution)
    (h : a.benefice_total - s.benefice_total = 1 / 100) :
    comparer_solutions a s = Verdict.equivalentes := by
  unfold comparer_solutions
  dsimp only
  rw [h, if_neg (by norm_num), if_neg (by norm_num)]

/-- C4 witness: candidate profit 196.62 against reference profit
196.61 is classified as equivalent. -/
theorem claim_C4_witness :
    comparer_solutions ⟨[], 0, 19662 / 100⟩ ⟨[], 0, 19661 / 100⟩ =
      Verdict.equivalentes :=
  claim_C4_epsilon_boundary ⟨[], 0, 19662 / 100⟩ ⟨[], 0, 19661 / 100⟩ (by norm_num)

/-- C5: for a positive budget, the exhaustive optimizer returns a
within-budget subsequence of its input whose reported profit is the
recomputed total of its chosen actions, and this profit dominates the
profit of every subsequence (the empty one included) whose cost fits
the budget. -/
theorem claim_C5_bruteforce_optimal (actions : List Action) (budget : ℚ)
    (hb : 0 < budget) :
    (trouver_meilleure_combinaison actions budget).cout_total ≤ budget ∧
      (trouver_meilleure_combinaison actions budget).benefice_total =
        beneficeTotal (trouver_meilleure_combinaison actions budget).actions ∧
      (trouver_meilleure_combinaison actions budget).actions.Sublist actions ∧
      ∀ s : List Action, s.Sublist actions → coutTotal s ≤ budget →
        beneficeTotal s ≤
          (trouver_meilleure_combinaison actions budget).benefice_total := by
  obtain ⟨h1, h2, h3, h4⟩ := trouver_inv actions (le_of_lt hb)
  exact ⟨h4, h2, h3, fun s hs hf => trouver_upper hs hf⟩

/-- C5 witness: on the single asset (cost 2, 50%) with budget 3, the
exhaustive result is feasible and dominates the full selection. -/
theorem claim_C5_witness :
    (trouver_meilleure_combinaison [⟨"A", 2, 50⟩] 3).cout_total ≤ 3 ∧
      beneficeTotal [⟨"A", 2, 50⟩] ≤
        (trouver_meilleure_combinaison [⟨"A", 2, 50⟩] 3).benefice_total :=
  ⟨(claim_C5_bruteforce_optimal [⟨"A", 2, 50⟩] 3 (by norm_num)).1,
    (claim_C5_bruteforce_optimal [⟨"A", 2, 50⟩] 3 (by norm_num)).2.2.2
      [⟨"A", 2, 50⟩] (List.Sublist.refl _) (by with_unfolding_all decide)⟩

/-- C8: with budget 0, all three optimizers return the empty Selection
with zero cost and zero profit, for every list of assets with positive
costs. -/
theorem claim_C8_budget_zero (actions : List Action)
    (hpos : ∀ a ∈ actions, 0 < a.cout) :
    trouver_meilleure_combinaison actions 0 = ⟨[], 0, 0⟩ ∧
      algorithme_glouton actions 0 = ⟨[], 0, 0⟩ ∧
      algorithme_sac_a_dos actions 0 = ⟨[], 0, 0⟩ :=
  ⟨trouver_nonpos hpos le_rfl, glouton_nonpos hpos le_rfl, sac_nonpos le_rfl⟩

/-- C8 witness: the three optimizers at budget 0 on one valid asset. -/
theorem claim_C8_witness :
    trouver_meilleure_combinaison [⟨"A", 1, 10⟩] 0 = ⟨[], 0, 0⟩ ∧
      algorithme_glouton [⟨"A", 1, 10⟩] 0 = ⟨[], 0, 0⟩ ∧
      algorithme_sac_a_dos [⟨"A", 1, 10⟩] 0 = ⟨[], 0, 0⟩ :=
  claim_C8_budget_zero [⟨"A", 1, 10⟩] (by
    intro a ha
    rw [List.mem_singleton] at ha
    subst ha
    norm_num)

/-- C9 counterexample: at budget −1 no optimizer fails; each returns
the empty Selection, so the advertised `InfeasibleBudget` hard
precondition failure does not exist in the code. -/
theorem claim_C9_counterexample :
    trouver_meilleure_combinaison [⟨"A", 1, 10⟩] (-1) = ⟨[], 0, 0⟩ ∧
      algorithme_glouton [⟨"A", 1, 10⟩] (-1) = ⟨[], 0, 0⟩ ∧
      algorithme_sac_a_dos [⟨"A", 1, 10⟩] (-1) = ⟨[], 0, 0⟩ := by
  with_unfolding_all decide

/-- C9 amended: for every budget ≤ 0 and every list of assets with
positive costs, each optimizer returns (rather than failing) the empty
Selection with zero totals. -/
theorem claim_C9_nonpos_budget_returns_empty (actions : List Action) (budget : ℚ)
    (hpos : ∀ a ∈ actions, 0 < a.cout) (hb : budget ≤ 0) :
    trouver_meilleure_combinaison actions budget = ⟨[], 0, 0⟩ ∧
      algorithme_glouton actions budget = ⟨[], 0, 0⟩ ∧
      algorithme_sac_a_dos actions budget = ⟨[], 0, 0⟩ :=
  ⟨trouver_nonpos hpos hb, glouton_nonpos hpos hb, sac_nonpos hb⟩

/-- C9 amended witness: budget −2 on one valid asset. -/
theorem claim_C9_witness :
    trouver_meilleure_combinaison [⟨"A", 1, 10⟩] (-2) = ⟨[], 0, 0⟩ ∧
      algorithme_glouton [⟨"A", 1, 10⟩] (-2) = ⟨[], 0, 0⟩ ∧
      algorithme_sac_a_dos [⟨"A", 1, 10⟩] (-2) = ⟨[], 0, 0⟩ :=
  claim_C9_nonpos_budget_returns_empty [⟨"A", 1, 10⟩] (-2) (by
    intro a ha
    rw [List.mem_singleton] at ha
    subst ha
    norm_num) (by norm_num)

/-- C6: the source recurrence, which scores an infeasible inclusion as
0, coincides with the spec's exclusion-only recurrence: whenever the
asset's scaled cost exceeds the budget level, the new table entry
equals the one above it, and globally `knap` equals `knapExcl`. -/
theorem claim_C6_infeasible_inclusion_is_exclusion :
    (∀ (cbs : List (ℕ × ℕ)) (B i b : ℕ) (hi : i < cbs.length), b ≤ B →
      b < (cbs.get ⟨i, hi⟩).1 →
      ((creer_table_dynamique cbs B).getD (i + 1) []).getD b 0 =
        ((creer_table_dynamique cbs B).getD i []).getD b 0) ∧
    (∀ (l : List (ℕ × ℕ)) (b : ℕ), knap l b = knapExcl l b) :=
  ⟨fun _ _ _ _ hi hb h => table_skip_of_infeasible hi hb h,
    fun l b => knap_eq_knapExcl l b⟩

/-- C6 witness: a 5-centime asset at budget level 2 in a 1-asset table
with 4 levels leaves the entry unchanged, and the two recurrences
agree on a concrete instance. -/
theorem claim_C6_witness :
    ((creer_table_dynamique [(5, 3)] 3).getD 1 []).getD 2 0 =
        ((creer_table_dynamique [(5, 3)] 3).getD 0 []).getD 2 0 ∧
      knap [(1, 2), (2, 5)] 2 = knapExcl [(1, 2), (2, 5)] 2 :=
  ⟨claim_C6_infeasible_inclusion_is_exclusion.1 [(5, 3)] 3 0 2 (by norm_num)
      (by norm_num) (by decide),
    claim_C6_infeasible_inclusion_is_exclusion.2 [(1, 2), (2, 5)] 2⟩

/-- C10: every list access of the DP is in range: the bounds-checked
table construction and bounds-checked backtracking (with an
integer-valued budget level) both return `some` of their unchecked
counterparts, and a changed table entry forces the asset's scaled cost
to be at most the current level, so the level never goes negative. -/
theorem claim_C10_index_safety (actions : List Action) (B : ℕ) :
    creerTableChecked (convertir_actions_en_centimes actions) B =
        some (creer_table_dynamique (convertir_actions_en_centimes actions) B) ∧
      retrouverAuxChecked actions (convertir_actions_en_centimes actions)
          (creer_table_dynamique (convertir_actions_en_centimes actions) B)
          actions.length (B : ℤ) =
        some (retrouverAux actions (convertir_actions_en_centimes actions)
          (creer_table_dynamique (convertir_actions_en_centimes actions) B)
          actions.length B) ∧
      ∀ (i b : ℕ) (hi : i < (convertir_actions_en_centimes actions).length),
        b ≤ B →
        ((creer_table_dynamique (convertir_actions_en_centimes actions)
            B).getD (i + 1) []).getD b 0 ≠
          ((creer_table_dynamique (convertir_actions_en_centimes actions)
            B).getD i []).getD b 0 →
        ((convertir_actions_en_centimes actions).get ⟨i, hi⟩).1 ≤ b :=
  ⟨creerTableChecked_eq _ B,
    retrouverAuxChecked_eq actions B actions.length B (le_refl _) (le_refl _),
    fun _ _ hi hb h => table_ne_implies_cout_le hi hb h⟩

/-- C10 witness: the checked pipeline on a concrete one-asset input,
plus the in-range guarantee at the one table entry that changes. -/
theorem claim_C10_witness :
    retrouverAuxChecked [⟨"A", 1 / 100, 100⟩]
        (convertir_actions_en_centimes [⟨"A", 1 / 100, 100⟩])
        (creer_table_dynamique
          (convertir_actions_en_centimes [⟨"A", 1 / 100, 100⟩]) 1) 1 (1 : ℤ) =
      some (retrouverAux [⟨"A", 1 / 100, 100⟩]
        (convertir_actions_en_centimes [⟨"A", 1 / 100, 100⟩])
        (creer_table_dynamique
          (convertir_actions_en_centimes [⟨"A", 1 / 100, 100⟩]) 1) 1 1) ∧
    ((convertir_actions_en_centimes [⟨"A", 1 / 100, 100⟩]).get
        ⟨0, by with_unfolding_all decide⟩).1 ≤ 1 :=
  ⟨(claim_C10_index_safety [⟨"A", 1 / 100, 100⟩] 1).2.1,
    (claim_C10_index_safety [⟨"A", 1 / 100, 100⟩] 1).2.2 0 1
      (by with_unfolding_all decide) (by norm_num)
      (by with_unfolding_all decide)⟩

/-- C1 counterexample: on the two valid assets Y (cost 1, 1%) and
X (cost 1, 1.9%) with budget 1, profit truncation to whole centimes
makes the DP pick Y (profit 0.01) while the exhaustive optimizer picks
X (profit 0.019), so the two reported profits differ. -/
theorem claim_C1_counterexample :
    ActionValide ⟨"Y", 1, 1⟩ ∧ ActionValide ⟨"X", 1, 19 / 10⟩ ∧ (0 : ℚ) < 1 ∧
      (algorithme_sac_a_dos [⟨"Y", 1, 1⟩, ⟨"X", 1, 19 / 10⟩] 1).benefice_total ≠
        (trouver_meilleure_combinaison [⟨"Y", 1, 1⟩, ⟨"X", 1, 19 / 10⟩]
          1).benefice_total := by
  refine ⟨⟨by norm_num, by norm_num⟩, ⟨by norm_num, by norm_num⟩, by norm_num, ?_⟩
  with_unfolding_all decide

/-- C1 amended: when every asset's cost and derived euro profit are
whole positive numbers of centimes (so the `int(x * 100)` scaling is
lossless), the DP's reported total profit equals the exhaustive
optimizer's on every positive budget. -/
theorem claim_C1_dp_equals_exhaustive (actions : List Action) (budget : ℚ)
    (hb : 0 < budget) (hc : ∀ a ∈ actions, CoutEntier a)
    (hp : ∀ a ∈ actions, BeneficeEntier a) :
    (algorithme_sac_a_dos actions budget).benefice_total =
      (trouver_meilleure_combinaison actions budget).benefice_total := by
  have hdp := dp_benefice_scaled actions budget hc hp
  obtain ⟨hwc, hwb, hws⟩ := dp_result_wf actions budget
  have hdpfeas : coutTotal (algorithme_sac_a_dos actions budget).actions ≤ budget := by
    rw [← hwc]
    exact dp_cout_le actions budget hc (le_of_lt hb)
  have hle1 : (algorithme_sac_a_dos actions budget).benefice_total ≤
      (trouver_meilleure_combinaison actions budget).benefice_total := by
    rw [hwb]
    exact trouver_upper hws hdpfeas
  obtain ⟨h1, h2, h3, h4⟩ := trouver_inv actions (le_of_lt hb)
  have hup := knap_upper_subperm actions budget hc hp (le_of_lt hb) h3.subperm
    (by rw [← h1]; exact h4)
  have hle2 : (trouver_meilleure_combinaison actions budget).benefice_total ≤
      (algorithme_sac_a_dos actions budget).benefice_total := by
    rw [h2]
    linarith
  linarith

/-- C1 amended witness: one whole-centime asset, budget 2. -/
theorem claim_C1_witness :
    (algorithme_sac_a_dos [⟨"A", 1, 50⟩] 2).benefice_total =
      (trouver_meilleure_combinaison [⟨"A", 1, 50⟩] 2).benefice_total :=
  claim_C1_dp_equals_exhaustive [⟨"A", 1, 50⟩] 2 (by norm_num)
    (by
      intro a ha
      rw [List.mem_singleton] at ha
      subst ha
      exact ⟨100, by norm_num, by norm_num⟩)
    (by
      intro a ha
      rw [List.mem_singleton] at ha
      subst ha
      exact ⟨50, by norm_num [benefice_euros]⟩)

/-- C2 counterexample: the valid asset of cost 0.015 scales to 1
centime by truncation, so with budget 0.01 the DP selects it and
reports total cost 0.015 > 0.01: the feasibility invariant fails for
the DP on costs that are not whole centimes. -/
theorem claim_C2_counterexample :
    (0 : ℚ) < 1 / 100 ∧ ActionValide ⟨"D", 3 / 200, 100⟩ ∧
      ¬ (algorithme_sac_a_dos [⟨"D", 3 / 200, 100⟩] (1 / 100)).cout_total ≤
        1 / 100 := by
  refine ⟨by norm_num, ⟨by norm_num, by norm_num⟩, ?_⟩
  with_unfolding_all decide

/-- C2 amended: with a positive budget, the exhaustive and greedy
optimizers always stay within budget, unconditionally; the DP stays
within budget provided every asset's cost is a whole positive number
of centimes. -/
theorem claim_C2_cout_le_budget (actions : List Action) (budget : ℚ)
    (hb : 0 < budget) :
    (trouver_meilleure_combinaison actions budget).cout_total ≤ budget ∧
      (algorithme_glouton actions budget).cout_total ≤ budget ∧
      ((∀ a ∈ actions, CoutEntier a) →
        (algorithme_sac_a_dos actions budget).cout_total ≤ budget) := by
  refine ⟨(trouver_inv actions (le_of_lt hb)).2.2.2, ?_,
    fun hc => dp_cout_le actions budget hc (le_of_lt hb)⟩
  show coutTotal (selectionGloutonne (trierParRatio actions) budget) ≤ budget
  exact selectionGloutonne_cout_le (le_of_lt hb)

/-- C2 amended witness: the exhaustive and greedy bounds at a
fractional-centime cost (0.015 at budget 2), and the DP bound at a
whole-centime asset (cost 1, budget 2). -/
theorem claim_C2_witness :
    ((trouver_meilleure_combinaison [⟨"D", 3 / 200, 100⟩] 2).cout_total ≤ 2 ∧
        (algorithme_glouton [⟨"D", 3 / 200, 100⟩] 2).cout_total ≤ 2) ∧
      (algorithme_sac_a_dos [⟨"A", 1, 50⟩] 2).cout_total ≤ 2 :=
  ⟨⟨(claim_C2_cout_le_budget [⟨"D", 3 / 200, 100⟩] 2 (by norm_num)).1,
      (claim_C2_cout_le_budget [⟨"D", 3 / 200, 100⟩] 2 (by norm_num)).2.1⟩,
    (claim_C2_cout_le_budget [⟨"A", 1, 50⟩] 2 (by norm_num)).2.2
      (by
        intro a ha
        rw [List.mem_singleton] at ha
        subst ha
        exact ⟨100, by norm_num, by norm_num⟩)⟩

/-- C3 counterexample: with assets B (cost 1, 2%) and A (cost 1,
2.99%) and budget 1, both scale to 2 whole centimes of profit, the DP
resolves the tie to B (exact profit 0.02) while the greedy ranks A
first (exact profit 0.0299), so the greedy strictly beats the DP. -/
theorem claim_C3_counterexample :
    ActionValide ⟨"B", 1, 2⟩ ∧ ActionValide ⟨"A", 1, 299 / 100⟩ ∧ (0 : ℚ) < 1 ∧
      ¬ (algorithme_glouton [⟨"B", 1, 2⟩, ⟨"A", 1, 299 / 100⟩] 1).benefice_total ≤
        (algorithme_dynamique [⟨"B", 1, 2⟩, ⟨"A", 1, 299 / 100⟩]
          1).benefice_total := by
  refine ⟨⟨by norm_num, by norm_num⟩, ⟨by norm_num, by norm_num⟩, by norm_num, ?_⟩
  with_unfolding_all decide

/-- C3 amended: under lossless centime scaling of all costs and
profits, the greedy optimizer's total profit never exceeds the DP's on
any positive budget. -/
theorem claim_C3_glouton_le_dynamique (actions : List Action) (budget : ℚ)
    (hb : 0 < budget) (hc : ∀ a ∈ actions, CoutEntier a)
    (hp : ∀ a ∈ actions, BeneficeEntier a) :
    (algorithme_glouton actions budget).benefice_total ≤
      (algorithme_dynamique actions budget).benefice_total := by
  have hsubp : (selectionGloutonne (trierParRatio actions) budget).Subperm actions :=
    ((selectionGloutonne_sublist _ _).subperm).trans (trierParRatio_perm actions).subperm
  have hfeas := selectionGloutonne_cout_le (l := trierParRatio actions)
    (r := budget) (le_of_lt hb)
  have hup := knap_upper_subperm actions budget hc hp (le_of_lt hb) hsubp hfeas
  have hdp := dp_benefice_scaled actions budget hc hp
  show beneficeTotal (selectionGloutonne (trierParRatio actions) budget) ≤
    (algorithme_sac_a_dos actions budget).benefice_total
  linarith

/-- C3 amended witness: one whole-centime asset, budget 2. -/
theorem claim_C3_witness :
    (algorithme_glouton [⟨"A", 1, 50⟩] 2).benefice_total ≤
      (algorithme_dynamique [⟨"A", 1, 50⟩] 2).benefice_total :=
  claim_C3_glouton_le_dynamique [⟨"A", 1, 50⟩] 2 (by norm_num)
    (by
      intro a ha
      rw [List.mem_singleton] at ha
      subst ha
      exact ⟨100, by norm_num, by norm_num⟩)
    (by
      intro a ha
      rw [List.mem_singleton] at ha
      subst ha
      exact ⟨50, by norm_num [benefice_euros]⟩)

/-- C7 counterexample: the greedy of `analyse_datasets.py` writes a
`ratio` key into each input record; a record without that key is
modified in place, so the input list is not left unchanged. -/
theorem claim_C7_counterexample :
    (algorithme_glouton_analyse [⟨"A", 2, 10, 1 / 5, none⟩] 500).1 ≠
      [⟨"A", 2, 10, 1 / 5, none⟩] := by
  with_unfolding_all decide

/-- C7 amended: the analyse-datasets greedy rewrites exactly the
`ratio` field of every input record to `benefice_pct / cout`, keeping
the name, cost, percentage and euro-profit fields and the list order;
when every record already carries that ratio the inputs are unchanged
(and the other optimizers' embeddings are pure functions that return
fresh structures, leaving inputs untouched). -/
theorem claim_C7_greedy_mutates_ratio_only (actions : List ActionRec) (budget : ℚ) :
    ((algorithme_glouton_analyse actions budget).1.map
        (fun a => (a.nom, a.cout, a.benefice_pct, a.benefice_euros)) =
      actions.map (fun a => (a.nom, a.cout, a.benefice_pct, a.benefice_euros))) ∧
      (algorithme_glouton_analyse actions budget).1 = actions.map setRatio ∧
      ((∀ a ∈ actions, a.ratio = some (a.benefice_pct / a.cout)) →
        (algorithme_glouton_analyse actions budget).1 = actions) := by
  refine ⟨?_, rfl, ?_⟩
  · show (actions.map setRatio).map _ = _
    rw [List.map_map]
    exact List.map_congr_left fun a _ => rfl
  · intro h
    show actions.map setRatio = actions
    have hpt : ∀ a ∈ actions, setRatio a = a := by
      intro a ha
      unfold setRatio
      rw [← h a ha]
    rw [List.map_congr_left hpt, List.map_id']

/-- C7 amended witness: a record whose `ratio` field already holds
`benefice_pct / cout` passes through the analyse-datasets greedy
unchanged. -/
theorem claim_C7_witness :
    (algorithme_glouton_analyse [⟨"A", 2, 10, 1 / 5, some 5⟩] 500).1 =
      [⟨"A", 2, 10, 1 / 5, some 5⟩] :=
  (claim_C7_greedy_mutates_ratio_only [⟨"A", 2, 10, 1 / 5, some 5⟩] 500).2.2
    (by
      intro a ha
      rw [List.mem_singleton] at ha
      subst ha
      norm_num)

end AlgoInvest
